import Mathlib

/-!
Verification of the segmentation-and-reconstruction pipeline of the
gemini-subtitle-generator-translator repository.

The Python sources are shallowly embedded: seconds values (Python floats)
are modelled as rationals, file contents as `String`/`List Char`, external
effects (ffprobe duration probing, directory listings, the remote
transcription service) as explicit parameters.
-/

namespace SubGen

/-! ### split_audio.py : find_optimal_split_points_sec

The inner `while (target - cursor) > max_chunk_length` loop appends forced
cut points spaced exactly `maxLen` apart and advances the cursor.  The
Python loop diverges when `maxLen <= 0`; the embedding guards the
recursion with `0 < maxLen`, which leaves behaviour unchanged on every
terminating input. -/

def forceCuts (maxLen : ℚ) (cursor target : ℚ) : List ℚ × ℚ :=
  if h : 0 < maxLen ∧ maxLen < target - cursor then
    let next := cursor + maxLen
    let r := forceCuts maxLen next target
    (next :: r.1, r.2)
  else
    ([], cursor)
termination_by (⌈(target - cursor) / maxLen⌉).toNat
decreasing_by
  obtain ⟨hm, hgt⟩ := h
  have h1 : (1 : ℚ) < (target - cursor) / maxLen := (one_lt_div hm).mpr hgt
  have hceil : 1 < ⌈(target - cursor) / maxLen⌉ := Int.lt_ceil.mpr (by exact_mod_cast h1)
  have hsub : target - (cursor + maxLen) = (target - cursor) - maxLen := by ring
  have hdiv : (target - (cursor + maxLen)) / maxLen = (target - cursor) / maxLen - 1 := by
    rw [hsub, sub_div, div_self (ne_of_gt hm)]
  have hc2 : ⌈(target - (cursor + maxLen)) / maxLen⌉
      = ⌈(target - cursor) / maxLen⌉ - 1 := by
    rw [hdiv, Int.ceil_sub_one]
  omega

/-- The main `for start_sec, end_sec in silence_points_sec` loop: for each
silence interval compute the midpoint, insert forced cuts while the span
from the cursor exceeds `maxLen`, then record the midpoint as a natural
cut and move the cursor there.  Returns the appended points and the final
cursor. -/
def planLoop (maxLen : ℚ) : List (ℚ × ℚ) → ℚ → List ℚ × ℚ
  | [], cursor => ([], cursor)
  | iv :: rest, cursor =>
    let mid := (iv.1 + iv.2) / 2
    let fc := forceCuts maxLen cursor mid
    let r := planLoop maxLen rest mid
    (fc.1 ++ mid :: r.1, r.2)

/-- All cut points appended by `find_optimal_split_points_sec` before the
final sort/dedup/filter, together with the final cursor. -/
def rawSplitPoints (audioLen : ℚ) (silence : List (ℚ × ℚ)) (maxLen : ℚ) :
    List ℚ × ℚ :=
  let l := planLoop maxLen silence 0
  let fin := forceCuts maxLen l.2 audioLen
  (l.1 ++ fin.1, fin.2)

/-- `find_optimal_split_points_sec(audio_length_sec, silence_points_sec,
max_chunk_length_sec)`: the appended points, deduplicated (`set(...)`),
restricted to the open interval `(0, audio_length_sec)` and sorted
ascending. -/
def find_optimal_split_points_sec (audioLen : ℚ) (silence : List (ℚ × ℚ))
    (maxLen : ℚ) : List ℚ :=
  (((rawSplitPoints audioLen silence maxLen).1.filter
      (fun p => decide (0 < p) && decide (p < audioLen))).dedup).mergeSort

/-- `Cover maxLen L a b`: every point of `[a, b)` has a strict successor
in `L` at distance at most `maxLen`.  This is the loop invariant of the
planner: the cut points appended so far cover `[0, cursor)`. -/
def Cover (maxLen : ℚ) (L : List ℚ) (a b : ℚ) : Prop :=
  ∀ p : ℚ, a ≤ p → p < b → ∃ s ∈ L, p < s ∧ s ≤ p + maxLen

/-! ### combine_transcripts.py : string utilities

Python `str` values are modelled as `List Char` internally and `String` at
the interface.  `str.strip`/`str.lower` are modelled for the ASCII range
(all header and marker constants in the source are ASCII). -/

/-- The whitespace characters recognised by `str.strip()` / `\s` (ASCII
range). -/
def pySpace (c : Char) : Bool :=
  c = ' ' || c = '\t' || c = '\n' || c = '\r' || c = '\x0b' || c = '\x0c'

/-- `str.strip()`: drop leading and trailing whitespace. -/
def stripL (cs : List Char) : List Char :=
  ((cs.dropWhile pySpace).reverse.dropWhile pySpace).reverse

/-- `str.splitlines()`: split on line boundaries, no trailing empty line. -/
def splitlinesAux : List Char → List Char → List (List Char)
  | [], acc => if acc.isEmpty then [] else [acc.reverse]
  | '\r' :: '\n' :: rest, acc => acc.reverse :: splitlinesAux rest []
  | '\n' :: rest, acc => acc.reverse :: splitlinesAux rest []
  | '\r' :: rest, acc => acc.reverse :: splitlinesAux rest []
  | c :: rest, acc => splitlinesAux rest (c :: acc)

/-- `needle` occurs at the start of the list (`str.startswith`). -/
def startsWithL : List Char → List Char → Bool
  | [], _ => true
  | _ :: _, [] => false
  | a :: as, b :: bs => a = b && startsWithL as bs

/-- Python substring containment `needle in haystack`. -/
def containsSubL (needle : List Char) : List Char → Bool
  | [] => needle.isEmpty
  | b :: bs => startsWithL needle (b :: bs) || containsSubL needle bs

/-- `s.replace(p + p, '')` for a two-character pattern `p p` (used for
`'**'` and `'__'`): left-to-right, non-overlapping removal. -/
def stripPairAll (p : Char) : List Char → List Char
  | [] => []
  | [c] => [c]
  | a :: b :: rest =>
    if a = p && b = p then stripPairAll p rest
    else a :: stripPairAll p (b :: rest)

/-- Line normalisation in `extract_segments`:
`line.strip().lower().replace('*', '').replace('#', '').replace('_', '').replace(':', '')`. -/
def cleanLine (line : List Char) : List Char :=
  ((stripL line).map Char.toLower).filter
    (fun c => !(c = '*' || c = '#' || c = '_' || c = ':'))

/-! ### combine_transcripts.py : parse_timestamp_sec -/

/-- Digits to value, most significant first. -/
def digitsToNat (cs : List Char) : ℕ :=
  cs.foldl (fun a c => a * 10 + (c.toNat - '0'.toNat)) 0

/-- Python `int(part)`: succeeds on a nonempty all-digit string (the input
chars are already restricted to digits, `':'` and `'.'`), raises
`ValueError` (modelled as `none`) otherwise. -/
def intOpt (cs : List Char) : Option ℤ :=
  if cs ≠ [] && cs.all Char.isDigit then some (digitsToNat cs : ℤ) else none

/-- Python `float(part)` on strings made of digits and dots: at most one
dot and at least one digit. -/
def floatOpt (cs : List Char) : Option ℚ :=
  if cs.all (fun c => c.isDigit || c = '.') then
    match cs.count '.' with
    | 0 => if cs ≠ [] then some (digitsToNat cs : ℚ) else none
    | 1 =>
      let ip := cs.takeWhile (fun c => c ≠ '.')
      let fp := (cs.dropWhile (fun c => c ≠ '.')).tail
      if ip ++ fp ≠ [] then
        some ((digitsToNat ip : ℚ) + (digitsToNat fp : ℚ) / (10 : ℚ) ^ fp.length)
      else none
    | _ => none
  else none

/-- `parse_timestamp_sec(timestamp_str)`: strip every character other than
digits, `':'` and `'.'`; split on `':'`; interpret as `H:MM:SS[.fff]` or
`M:SS[.fff]`; any conversion failure yields `none`. -/
def parse_timestamp_sec (ts : List Char) : Option ℚ :=
  let clean := ts.filter (fun c => c.isDigit || c = ':' || c = '.')
  match clean.splitOn ':' with
  | [h, m, s] =>
    match intOpt h, intOpt m, floatOpt s with
    | some hv, some mv, some sv => some ((hv : ℚ) * 3600 + (mv : ℚ) * 60 + sv)
    | _, _, _ => none
  | [m, s] =>
    match intOpt m, floatOpt s with
    | some mv, some sv => some ((mv : ℚ) * 60 + sv)
    | _, _ => none
  | _ => none

/-! ### combine_transcripts.py : extract_segments -/

inductive ContentChoice
  | transcript
  | translation
  | both
deriving DecidableEq, Repr

/-- Priority list of target section headers derived from the user choice. -/
def prioritySections : ContentChoice → List (List Char)
  | .translation => ["timestamped translation".toList]
  | .transcript => ["timestamped transcript".toList]
  | .both => ["timestamped translation".toList, "timestamped transcript".toList]

/-- A normalised line marks the start of the target section when it
contains the header text and is short (< 50 chars). -/
def findHeaderIdx (cleans : List (List Char)) (target : List Char) : Option ℕ :=
  cleans.findIdx? (fun cl => containsSubL target cl && decide (cl.length < 50))

def findPriorityIdx (cleans : List (List Char)) : List (List Char) → Option ℕ
  | [] => none
  | t :: ts =>
    match findHeaderIdx cleans t with
    | some i => some i
    | none => findPriorityIdx cleans ts

/-- Section-start search including the redundant `'both'` fallback to the
transcript header. -/
def findStartIdx (cleans : List (List Char)) (choice : ContentChoice) : Option ℕ :=
  match findPriorityIdx cleans (prioritySections choice) with
  | some i => some i
  | none =>
    if choice = .both then findHeaderIdx cleans "timestamped transcript".toList
    else none

/-- A normalised line ends the section when it looks like any header:
mentions transcript/translation, is short, and is either `timestamped` or
exactly a bare header word. -/
def isEndHeader (cl : List Char) : Bool :=
  ((containsSubL "transcript".toList cl || containsSubL "translation".toList cl)
      && decide (cl.length < 50))
    && (containsSubL "timestamped".toList cl
      || cl == "transcript".toList || cl == "translation".toList)

def findEndIdx (cleans : List (List Char)) (startIdx : ℕ) : ℕ :=
  match (cleans.drop (startIdx + 1)).findIdx? isEndHeader with
  | some j => startIdx + 1 + j
  | none => cleans.length

/-- Greedy run of at most `n` digits. -/
def takeDigitsUpTo : ℕ → List Char → List Char × List Char
  | 0, l => ([], l)
  | _, [] => ([], [])
  | n + 1, c :: r =>
    if c.isDigit then
      let p := takeDigitsUpTo n r
      (c :: p.1, p.2)
    else ([], c :: r)

/-- `\d{1,2}` immediately followed by `':'` (with the regex backtracking
resolved: two digits are taken only when the colon follows them). -/
def matchMinutes : List Char → Option (List Char × List Char)
  | d1 :: ':' :: r => if d1.isDigit then some ([d1], r) else none
  | d1 :: d2 :: ':' :: r => if d1.isDigit && d2.isDigit then some ([d1, d2], r) else none
  | _ => none

/-- Optional fractional-seconds group `(?:[:.]\d{1,3})?`: a separator is
consumed only together with at least one digit; at most three digits. -/
def matchFrac : List Char → List Char × List Char
  | sep :: d :: r =>
    if (sep = ':' || sep = '.') && d.isDigit then
      let p := takeDigitsUpTo 2 r
      (sep :: d :: p.1, p.2)
    else ([], sep :: d :: r)
  | l => ([], l)

/-- The cue-line regex
`^[\[\(]?\s*(\d{1,2}:\d{2}(?:[:.]\d{1,3})?)[\]\)]?:?\s*(.*)` as a
deterministic matcher (everything after the timestamp group is optional,
so greedy maximal munch is equivalent).  Returns the timestamp group and
the trailing-text group. -/
def parseCueLine (cs : List Char) : Option (List Char × List Char) :=
  let s1 := match cs with
    | '[' :: r => r
    | '(' :: r => r
    | _ => cs
  let s2 := s1.dropWhile pySpace
  match matchMinutes s2 with
  | none => none
  | some (mm, r1) =>
    match r1 with
    | a :: b :: r2 =>
      if a.isDigit && b.isDigit then
        let fr := matchFrac r2
        let ts := mm ++ ':' :: a :: b :: fr.1
        let r3 := match fr.2 with
          | ']' :: r => r
          | ')' :: r => r
          | _ => fr.2
        let r4 := match r3 with
          | ':' :: r => r
          | _ => r3
        some (ts, r4.dropWhile pySpace)
      else none
    | _ => none

/-- The cue-extraction loop over the identified block: match each stripped
line (bold/underline markup removed) against the timestamp pattern, drop
cues with empty text or unparseable timestamps. -/
def extractFromBlock : List (List Char) → List (ℚ × String)
  | [] => []
  | line :: rest =>
    let lineClean := stripPairAll '_' (stripPairAll '*' (stripL line))
    match parseCueLine lineClean with
    | none => extractFromBlock rest
    | some (ts, rawText) =>
      let text := stripL rawText
      if text.isEmpty then extractFromBlock rest
      else
        match parse_timestamp_sec ts with
        | some sec => (sec, String.mk text) :: extractFromBlock rest
        | none => extractFromBlock rest

/-- `extract_segments(transcript_text, content_choice)`: locate the
requested section and extract `(offset, text)` cues from it, in file
order.  The `filename` argument of the source is diagnostics-only and
omitted. -/
def extract_segments (transcriptText : String) (choice : ContentChoice) :
    List (ℚ × String) :=
  let lines := splitlinesAux transcriptText.toList []
  let cleans := lines.map cleanLine
  match findStartIdx cleans choice with
  | none => []
  | some startIdx =>
    let endIdx := findEndIdx cleans startIdx
    let block := (lines.drop (startIdx + 1)).take (endIdx - (startIdx + 1))
    extractFromBlock block

/-! ### combine_transcripts.py : format_timestamp_srt -/

/-- Python `f"{n:02d}"` for nonnegative `n`. -/
def pad2 (n : ℕ) : String :=
  if n < 10 then "0" ++ toString n else toString n

/-- Python `f"{n:03d}"` for nonnegative `n`. -/
def pad3 (n : ℕ) : String :=
  if n < 10 then "00" ++ toString n
  else if n < 100 then "0" ++ toString n
  else toString n

/-- `format_timestamp_srt(seconds)`: negative inputs are clamped to `0`;
`datetime.timedelta` stores the value at microsecond resolution (hence the
rounding); the integral part is split into hours / minutes / seconds and
the microsecond remainder truncated to milliseconds.  The value is
nonnegative after clamping, so total microseconds live in `ℕ`. -/
def format_timestamp_srt (seconds : ℚ) : String :=
  let s := if seconds < 0 then 0 else seconds
  let us : ℕ := (round (s * 1000000)).toNat
  let totalSeconds : ℕ := us / 1000000
  let hours := totalSeconds / 3600
  let minutes := (totalSeconds % 3600) / 60
  let secs := totalSeconds % 60
  let millis := (us % 1000000) / 1000
  pad2 hours ++ ":" ++ pad2 minutes ++ ":" ++ pad2 secs ++ "," ++ pad3 millis

/-! ### combine_transcripts.py : generate_srt -/

def MIN_DURATION_SEC : ℚ := 1.5
def MAX_DURATION_SEC : ℚ := 7.0
def CHARS_PER_SECOND : ℚ := 14
def GAP_BETWEEN_SUBS : ℚ := 0.05

/-- One emitted subtitle entry `{'start': .., 'end': .., 'text': ..}`
(the `end` key is named `stop` because `end` is reserved). -/
structure SrtEntry where
  start : ℚ
  stop : ℚ
  text : String
deriving DecidableEq, Repr

/-- `len(text) / CHARS_PER_SECOND + 1.0`, before clamping. -/
def idealDurationOf (text : String) : ℚ :=
  (text.length : ℚ) / CHARS_PER_SECOND + 1.0

/-- `max(MIN_DURATION_SEC, min(ideal_duration, MAX_DURATION_SEC))`. -/
def clampedDuration (text : String) : ℚ :=
  max MIN_DURATION_SEC (min (idealDurationOf text) MAX_DURATION_SEC)

/-- The constraint on a cue's end time: the next cue's global start minus
the fixed gap when a next cue exists in this chunk, the chunk's own end
time otherwise. -/
def constraintOf (globalOffset duration : ℚ) : Option ℚ → ℚ
  | some nextSec => (globalOffset + nextSec) - GAP_BETWEEN_SUBS
  | none => globalOffset + duration

/-- The per-cue body of the synthesis loop: global start, duration
heuristic, next-cue / chunk-end constraint, and the duration floor when
the constrained end collapses onto the start.  `next?` is the next cue's
local offset within the same chunk, if any. -/
def mkEntry (globalOffset duration : ℚ) (seg : ℚ × String) (next? : Option ℚ) :
    SrtEntry :=
  let globalStart := globalOffset + seg.1
  let idealEnd := globalStart + clampedDuration seg.2
  let constraintTime := constraintOf globalOffset duration next?
  let globalEnd := if idealEnd < constraintTime then idealEnd else constraintTime
  let globalEnd2 := if globalEnd ≤ globalStart then globalStart + MIN_DURATION_SEC
    else globalEnd
  { start := globalStart, stop := globalEnd2, text := seg.2 }

/-- The `for j, (start_sec, text) in enumerate(local_segments)` loop. -/
def chunkEntries (globalOffset duration : ℚ) : List (ℚ × String) → List SrtEntry
  | [] => []
  | seg :: rest =>
    mkEntry globalOffset duration seg (rest.head?.map Prod.fst)
      :: chunkEntries globalOffset duration rest

/-- One audio chunk as seen by `generate_srt`: the probed duration
(`get_audio_duration`, an external collaborator) and the content of the
matching transcript artifact when the `.txt` file exists. -/
structure ChunkInput where
  duration : ℚ
  transcript : Option String

/-- The cues contributed by a chunk: nothing when the artifact is missing,
otherwise the extractor's output on its content. -/
def segsOf (choice : ContentChoice) (c : ChunkInput) : List (ℚ × String) :=
  match c.transcript with
  | some content => extract_segments content choice
  | none => []

/-- The chunk iteration of `generate_srt`: accumulate entries and advance
`global_offset` by the probed duration of every chunk, transcript or not.
Returns the final offset and all emitted entries. -/
def srtLoop (choice : ContentChoice) : ℚ → List ChunkInput → ℚ × List SrtEntry
  | offset, [] => (offset, [])
  | offset, c :: cs =>
    let es := chunkEntries offset c.duration (segsOf choice c)
    let r := srtLoop choice (offset + c.duration) cs
    (r.1, es ++ r.2)

/-- The cue index written before each block: `idx + 1` for
`idx, entry in enumerate(all_srt_entries)`. -/
def writtenIndices (entries : List SrtEntry) : List ℕ :=
  entries.enum.map (fun p => p.1 + 1)

/-- The subtitle file body:
`f"{idx + 1}\n{start} --> {end}\n{text}\n\n"` per entry. -/
def serializeSrt (entries : List SrtEntry) : String :=
  String.join (entries.enum.map (fun p =>
    toString (p.1 + 1) ++ "\n" ++ format_timestamp_srt p.2.start ++ " --> "
      ++ format_timestamp_srt p.2.stop ++ "\n" ++ p.2.text ++ "\n\n"))

/-- `generate_srt`: fails (returning `False` and writing nothing) when the
chunk list is empty or when no entry was extracted; otherwise writes the
serialized entries and returns `True`.  `chunks` is the sorted audio-chunk
listing paired with the transcript artifacts; the returned `Option String`
is the written file content. -/
def generate_srt (chunks : List ChunkInput) (choice : ContentChoice)
    (firstChunkOffset : ℚ) : Bool × Option String :=
  if chunks.isEmpty then (false, none)
  else
    let entries := (srtLoop choice firstChunkOffset chunks).2
    if entries.isEmpty then (false, none)
    else (true, some (serializeSrt entries))

/-! ### transcript.py -/

def MAX_RETRIES : ℕ := 5

def lowerStr (s : String) : String := String.mk (s.toList.map Char.toLower)

/-- `is_valid_transcript(filepath)`: the artifact exists (`some`), is
nonempty, and its lowercased content has no `"error"` and has the
`"timestamped transcript:"` header. -/
def is_valid_transcript (artifact : Option String) : Bool :=
  match artifact with
  | none => false
  | some content =>
    if content.length = 0 then false
    else
      let lc := (lowerStr content).toList
      !containsSubL "error".toList lc
        && containsSubL "timestamped transcript:".toList lc

/-- `f"Error processing {filename} after {MAX_RETRIES} attempts: {e}\n"`,
the failure marker persisted after exhausting retries. -/
def errMessage (filename : String) (e : String) : String :=
  "Error processing "
    ++ (filename ++ (" after " ++ (toString MAX_RETRIES ++ (" attempts: " ++ (e ++ "\n")))))

/-- `process_audio_file`: the retry loop over the remote call, with the
attempt outcomes supplied as a list (one entry per executed attempt,
`MAX_RETRIES` in the source).  Returns the persisted artifact content and
the function's return value: a successful attempt persists and returns
the transcript; when the last attempt fails, the failure marker is
persisted and `""` returned. -/
def process_audio_file (filename : String) :
    List (Except String String) → Option String × String
  | [] => (none, "")
  | .ok transcript :: _ => (some transcript, transcript)
  | .error e :: rest =>
    match rest with
    | [] => (some (errMessage filename e), "")
    | _ :: _ => process_audio_file filename rest

/-- Shared success/skip counters guarded by `count_lock`. -/
structure Counters where
  processed : ℕ
  success : ℕ
  skipped : ℕ
deriving DecidableEq, Repr

/-- `process_file_wrapper`: when `skip_existing` holds and the persisted
artifact is valid, count a skipped success and return `"SKIPPED"` without
touching the remote service; otherwise run `process_audio_file` (its
attempt outcomes are the `attempts` parameter) and count it as a success
exactly when the result is nonempty and free of `"error"`. -/
def process_file_wrapper (skipExisting : Bool) (filename : String)
    (artifact : Option String) (attempts : List (Except String String))
    (counts : Counters) : String × Counters :=
  if skipExisting && is_valid_transcript artifact then
    ("SKIPPED",
      { processed := counts.processed + 1, success := counts.success + 1,
        skipped := counts.skipped + 1 })
  else
    let result := (process_audio_file filename attempts).2
    let ok := !result.isEmpty && !containsSubL "error".toList (lowerStr result).toList
    (result,
      { processed := counts.processed + 1,
        success := if ok then counts.success + 1 else counts.success,
        skipped := counts.skipped })

/-- Codepoint-lexicographic order on strings (Python `sorted`). -/
def charListLe : List Char → List Char → Bool
  | [], _ => true
  | _ :: _, [] => false
  | a :: as, b :: bs => if a < b then true else if a = b then charListLe as bs else false

/-- The `.mp3` directory filter of `run_transcription`. -/
def mp3Files (listing : List String) : List String :=
  listing.filter (fun f => f.endsWith ".mp3")

/-- `run_transcription`'s overall boolean result: `False` exactly when the
client fails to initialise, the audio directory cannot be listed
(`FileNotFoundError`), or no `.mp3` file is present; the worker pool then
runs and the function returns `True` regardless of per-chunk outcomes. -/
def run_transcription (clientOk : Bool) (audioDirListing : Option (List String)) :
    Bool :=
  if !clientOk then false
  else
    match audioDirListing with
    | none => false
    | some files =>
      let audioFiles := (mp3Files files).mergeSort
        (fun a b => charListLe a.toList b.toList)
      if audioFiles.isEmpty then false else true

/-! ### Shape predicates and concrete inputs used by the theorems -/

/-- `s` is exactly two decimal digits. -/
def twoDigitStr (s : String) : Bool :=
  match s.data with
  | [a, b] => a.isDigit && b.isDigit
  | _ => false

/-- `s` is exactly three decimal digits. -/
def threeDigitStr (s : String) : Bool :=
  match s.data with
  | [a, b, c] => a.isDigit && b.isDigit && c.isDigit
  | _ => false

/-- Character-level `HH:MM:SS,mmm` shape: exactly twelve characters,
digits in the six field positions, `':'`/`':'`/`','` separators. -/
def isShapeChars : List Char → Bool
  | [h1, h2, c1, m1, m2, c2, s1, s2, c3, x1, x2, x3] =>
    h1.isDigit && h2.isDigit && c1 = ':' && m1.isDigit && m2.isDigit && c2 = ':'
      && s1.isDigit && s2.isDigit && c3 = ',' && x1.isDigit && x2.isDigit && x3.isDigit
  | _ => false

/-- The exact `HH:MM:SS,mmm` shape of an SRT timestamp string. -/
def isShapeSrt (s : String) : Bool := isShapeChars s.data

/-- Two chunks for the monotonicity counterexample: the duration probe
reports `0.0` for the first chunk (its failure value) while its transcript
carries a cue at offset `1`; the second chunk has a cue at offset `0`. -/
def cexChunks : List ChunkInput :=
  [⟨0, some "Timestamped Translation:\n[00:01.000] a"⟩,
   ⟨1, some "Timestamped Translation:\n[00:00.000] b"⟩]

/-! ### Theorems about the segment planner -/

theorem Cover.mono {maxLen : ℚ} {L L' : List ℚ} {a b : ℚ}
    (hsub : ∀ x ∈ L, x ∈ L') (h : Cover maxLen L a b) : Cover maxLen L' a b := by
  intro p h1 h2
  obtain ⟨s, hs, hps, hple⟩ := h p h1 h2
  exact ⟨s, hsub s hs, hps, hple⟩

theorem forceCuts_cons (maxLen c t : ℚ) (h : 0 < maxLen ∧ maxLen < t - c) :
    forceCuts maxLen c t =
      ((c + maxLen) :: (forceCuts maxLen (c + maxLen) t).1,
        (forceCuts maxLen (c + maxLen) t).2) := by
  rw [forceCuts]; simp [h]

theorem forceCuts_nil (maxLen c t : ℚ) (h : ¬ (0 < maxLen ∧ maxLen < t - c)) :
    forceCuts maxLen c t = ([], c) := by
  rw [forceCuts]; simp [h]

theorem forceCuts_le (maxLen c t : ℚ) : c ≤ (forceCuts maxLen c t).2 := by
  induction c, t using forceCuts.induct maxLen with
  | case1 c t h nx ih =>
    rw [forceCuts_cons maxLen c t h]
    have hnx : nx = c + maxLen := rfl
    dsimp only at ih ⊢
    rw [hnx] at ih
    exact le_trans (by linarith [h.1]) ih
  | case2 c t h => rw [forceCuts_nil maxLen c t h]

theorem forceCuts_final (maxLen c t : ℚ) (hm : 0 < maxLen) :
    t - (forceCuts maxLen c t).2 ≤ maxLen := by
  induction c, t using forceCuts.induct maxLen with
  | case1 c t h nx ih =>
    rw [forceCuts_cons maxLen c t h]
    exact ih
  | case2 c t h =>
    rw [forceCuts_nil maxLen c t h]
    push_neg at h
    exact h hm

theorem forceCuts_cover (maxLen c t : ℚ) :
    Cover maxLen (forceCuts maxLen c t).1 c (forceCuts maxLen c t).2 := by
  induction c, t using forceCuts.induct maxLen with
  | case1 c t h nx ih =>
    rw [forceCuts_cons maxLen c t h]
    have hnx : nx = c + maxLen := rfl
    rw [hnx] at ih
    intro p hcp hpf
    by_cases hp : p < c + maxLen
    · exact ⟨c + maxLen, List.mem_cons_self _ _, hp, by linarith⟩
    · push_neg at hp
      obtain ⟨s, hs, h1, h2⟩ := ih p hp hpf
      exact ⟨s, List.mem_cons_of_mem _ hs, h1, h2⟩
  | case2 c t h =>
    rw [forceCuts_nil maxLen c t h]
    intro p hcp hpf
    exact absurd (lt_of_le_of_lt hcp hpf) (lt_irrefl c)

/-- The running invariant: if the points accumulated before the loop cover
`[0, cursor)`, the accumulated points after the loop cover `[0, final
cursor)`. -/
theorem planLoop_cover (maxLen : ℚ) (hm : 0 < maxLen) :
    ∀ (sil : List (ℚ × ℚ)) (c : ℚ) (L0 : List ℚ),
      Cover maxLen L0 0 c →
      Cover maxLen (L0 ++ (planLoop maxLen sil c).1) 0 (planLoop maxLen sil c).2 := by
  intro sil
  induction sil with
  | nil =>
    intro c L0 h
    simpa [planLoop] using h.mono (by simp)
  | cons iv rest ih =>
    intro c L0 h
    simp only [planLoop]
    set mid := (iv.1 + iv.2) / 2 with hmid
    have hfc := forceCuts_cover maxLen c mid
    have hfin := forceCuts_final maxLen c mid hm
    have hle := forceCuts_le maxLen c mid
    have hcov : Cover maxLen (L0 ++ (forceCuts maxLen c mid).1 ++ [mid]) 0 mid := by
      intro p hp0 hpm
      by_cases hpc : p < c
      · obtain ⟨s, hs, h1, h2⟩ := h p hp0 hpc
        exact ⟨s, by simp [hs], h1, h2⟩
      · push_neg at hpc
        by_cases hpc2 : p < (forceCuts maxLen c mid).2
        · obtain ⟨s, hs, h1, h2⟩ := hfc p hpc hpc2
          exact ⟨s, by simp [hs], h1, h2⟩
        · push_neg at hpc2
          exact ⟨mid, by simp, hpm, by linarith⟩
    have hfinal := ih mid (L0 ++ (forceCuts maxLen c mid).1 ++ [mid]) hcov
    refine hfinal.mono ?_
    intro x hx
    simp only [List.mem_append, List.mem_cons, List.mem_singleton] at hx ⊢
    tauto

/-- If `l` is sorted with all elements in `[a, T)`, and every point of
`[a, T)` whose `maxLen`-ball stays below `T` has a successor in `l` within
`maxLen`, then consecutive members of `a :: l ++ [T]` differ by at most
`maxLen`. -/
theorem chain_of_cover (T maxLen : ℚ) :
    ∀ (l : List ℚ) (a : ℚ), a < T →
      (∀ x ∈ l, a ≤ x ∧ x < T) →
      l.Sorted (· ≤ ·) →
      (∀ p : ℚ, a ≤ p → p + maxLen < T → ∃ s ∈ l, p < s ∧ s ≤ p + maxLen) →
      List.Chain' (fun x y => y - x ≤ maxLen) (a :: l ++ [T]) := by
  intro l
  induction l with
  | nil =>
    intro a haT _ _ hcov
    refine List.chain'_pair.mpr ?_
    by_contra hgt
    push_neg at hgt
    obtain ⟨s, hs, _, _⟩ := hcov a le_rfl (by linarith)
    exact absurd hs (List.not_mem_nil s)
  | cons b rest ih =>
    intro a haT hbnd hsort hcov
    have hab : a ≤ b := (hbnd b (by simp)).1
    have hbT : b < T := (hbnd b (by simp)).2
    have hsort' : rest.Sorted (· ≤ ·) := hsort.of_cons
    have hble : ∀ x ∈ rest, b ≤ x := fun x hx => List.rel_of_sorted_cons hsort x hx
    refine List.chain'_cons.mpr ⟨?_, ?_⟩
    · by_cases hcase : a + maxLen < T
      · obtain ⟨s, hs, hps, hple⟩ := hcov a le_rfl hcase
        have hbs : b ≤ s := by
          rcases List.mem_cons.mp hs with h | h
          · exact h ▸ le_rfl
          · exact hble s h
        linarith
      · push_neg at hcase
        linarith
    · refine ih b hbT ?_ hsort' ?_
      · intro x hx
        exact ⟨hble x hx, (hbnd x (by simp [hx])).2⟩
      · intro p hbp hpT
        obtain ⟨s, hs, hps, hple⟩ := hcov p (le_trans hab hbp) hpT
        rcases List.mem_cons.mp hs with h | h
        · exact absurd (h ▸ hps) (not_lt.mpr hbp)
        · exact ⟨s, h, hps, hple⟩

theorem mem_split_points_iff (T maxLen : ℚ) (sil : List (ℚ × ℚ)) (x : ℚ) :
    x ∈ find_optimal_split_points_sec T sil maxLen ↔
      x ∈ (rawSplitPoints T sil maxLen).1 ∧ 0 < x ∧ x < T := by
  unfold find_optimal_split_points_sec
  rw [(List.mergeSort_perm _ _).mem_iff, List.mem_dedup, List.mem_filter]
  simp

theorem split_points_sorted (T maxLen : ℚ) (sil : List (ℚ × ℚ)) :
    (find_optimal_split_points_sec T sil maxLen).Sorted (· ≤ ·) :=
  List.sorted_mergeSort' _

theorem raw_cover (T maxLen : ℚ) (hm : 0 < maxLen) (sil : List (ℚ × ℚ)) :
    Cover maxLen (rawSplitPoints T sil maxLen).1 0 (rawSplitPoints T sil maxLen).2 := by
  unfold rawSplitPoints
  dsimp only
  set l := planLoop maxLen sil 0 with hl
  set fin := forceCuts maxLen l.2 T with hfin
  have h1 : Cover maxLen ([] ++ l.1) 0 l.2 :=
    planLoop_cover maxLen hm sil 0 []
      (fun p hp1 hp2 => absurd (lt_of_le_of_lt hp1 hp2) (lt_irrefl 0))
  have h2 : Cover maxLen fin.1 l.2 fin.2 := forceCuts_cover maxLen l.2 T
  intro p hp0 hpf
  by_cases hpl : p < l.2
  · obtain ⟨s, hs, ha, hb⟩ := h1 p hp0 hpl
    exact ⟨s, by simp at hs ⊢; exact Or.inl hs, ha, hb⟩
  · push_neg at hpl
    obtain ⟨s, hs, ha, hb⟩ := h2 p hpl hpf
    exact ⟨s, by simp at hs ⊢; exact Or.inr hs, ha, hb⟩

/-- C1: for every total duration `T > 0`, every silence-interval list and
every `maxLen > 0`, in the sorted cut-point list returned by
`find_optimal_split_points_sec`, extended with `0` at the front and `T` at
the back, every two adjacent points differ by at most `maxLen`: every
resulting chunk has duration at most `maxLen`. -/
theorem split_points_bounded_gaps (T maxLen : ℚ) (sil : List (ℚ × ℚ))
    (hT : 0 < T) (hM : 0 < maxLen) :
    List.Chain' (fun x y => y - x ≤ maxLen)
      (0 :: find_optimal_split_points_sec T sil maxLen ++ [T]) := by
  have hmem := mem_split_points_iff T maxLen sil
  have hcfin : T - (rawSplitPoints T sil maxLen).2 ≤ maxLen := by
    unfold rawSplitPoints
    exact forceCuts_final maxLen _ T hM
  refine chain_of_cover T maxLen _ 0 hT ?_ (split_points_sorted T maxLen sil) ?_
  · intro x hx
    have := (hmem x).mp hx
    exact ⟨le_of_lt this.2.1, this.2.2⟩
  · intro p hp0 hpT
    by_cases hpc : p < (rawSplitPoints T sil maxLen).2
    · obtain ⟨s, hs, ha, hb⟩ := raw_cover T maxLen hM sil p hp0 hpc
      refine ⟨s, (hmem s).mpr ⟨hs, lt_of_le_of_lt hp0 ha, by linarith⟩, ha, hb⟩
    · push_neg at hpc
      exfalso
      linarith

/-- C1 witness: the invariant instantiated at `T = 1000`, silence intervals
`(295, 305)` and `(700, 710)`, `maxLen = 300` (Scenario A of the spec). -/
theorem split_points_bounded_gaps_witness :
    (0 : ℚ) < 1000 ∧ (0 : ℚ) < 300 ∧
      List.Chain' (fun x y => y - x ≤ (300 : ℚ))
        (0 :: find_optimal_split_points_sec 1000 [(295, 305), (700, 710)] 300 ++ [1000]) :=
  ⟨by norm_num, by norm_num,
    split_points_bounded_gaps 1000 300 [(295, 305), (700, 710)] (by norm_num) (by norm_num)⟩

/-! ### Theorems about the SRT timestamp formatter

The rational arithmetic of `Batteries` is `@[irreducible]`; it is unsealed
here so that concrete instances of the embedded functions evaluate inside
`decide`. -/

unseal Rat.add Rat.mul Rat.inv Rat.sub Rat.ofScientific

theorem pad2_shape : ∀ n : ℕ, n < 100 → twoDigitStr (pad2 n) = true := by decide

set_option maxRecDepth 20000 in
theorem pad3_shape : ∀ n : ℕ, n < 1000 → threeDigitStr (pad3 n) = true := by decide

theorem shape_assembly (a b c d : String) (ha : twoDigitStr a = true)
    (hb : twoDigitStr b = true) (hc : twoDigitStr c = true)
    (hd : threeDigitStr d = true) :
    isShapeSrt (a ++ ":" ++ b ++ ":" ++ c ++ "," ++ d) = true := by
  rcases a with ⟨la⟩
  rcases b with ⟨lb⟩
  rcases c with ⟨lc⟩
  rcases d with ⟨ld⟩
  rcases la with _ | ⟨a1, _ | ⟨a2, _ | ⟨a3, ra⟩⟩⟩ <;> simp [twoDigitStr] at ha
  rcases lb with _ | ⟨b1, _ | ⟨b2, _ | ⟨b3, rb⟩⟩⟩ <;> simp [twoDigitStr] at hb
  rcases lc with _ | ⟨c1, _ | ⟨c2, _ | ⟨c3, rc⟩⟩⟩ <;> simp [twoDigitStr] at hc
  rcases ld with _ | ⟨d1, _ | ⟨d2, _ | ⟨d3, _ | ⟨d4, rd⟩⟩⟩⟩ <;>
    simp [threeDigitStr] at hd
  have hcolon : (":" : String).data = [':'] := rfl
  have hcomma : ("," : String).data = [','] := rfl
  simp only [isShapeSrt, String.data_append, hcolon, hcomma, List.cons_append,
    List.nil_append, List.append_assoc]
  simp only [isShapeChars]
  simp [ha.1, ha.2, hb.1, hb.2, hc.1, hc.2, hd.1.1, hd.1.2, hd.2]

/-- C9 counterexample: at input `360000` seconds (100 hours) the formatter
emits `"100:00:00,000"`, whose hour field has three digits, so the output
is not of the exact `HH:MM:SS,mmm` shape claimed for every input. -/
theorem format_timestamp_shape_cex :
    isShapeSrt (format_timestamp_srt 360000) = false := by decide

/-- C9 (amended): for every input below the 100-hour mark (at microsecond
resolution) the formatter returns a string of the exact shape
`HH:MM:SS,mmm` with zero-padded two/two/two/three-digit fields, and every
negative input is rendered as `00:00:00,000` — so no negative timestamp
ever appears in the serialized subtitle file.  (Beyond 100 hours the hour
field widens; the claim's exact shape holds only below that bound.) -/
theorem format_timestamp_shape (q : ℚ)
    (hbound : round ((if q < 0 then 0 else q) * 1000000) < 360000000000) :
    isShapeSrt (format_timestamp_srt q) = true
    ∧ (q < 0 → format_timestamp_srt q = "00:00:00,000") := by
  constructor
  · simp only [format_timestamp_srt]
    have huslt : (round ((if q < 0 then 0 else q) * 1000000)).toNat < 360000000000 := by
      omega
    apply shape_assembly
    · exact pad2_shape _ (by omega)
    · exact pad2_shape _ (by omega)
    · exact pad2_shape _ (by omega)
    · exact pad3_shape _ (by omega)
  · intro hneg
    simp only [format_timestamp_srt, if_pos hneg]
    decide

/-- C9 witness: the amended theorem applied at input `-3`. -/
theorem format_timestamp_shape_witness :
    round ((if (-3 : ℚ) < 0 then 0 else (-3 : ℚ)) * 1000000) < 360000000000
    ∧ (isShapeSrt (format_timestamp_srt (-3)) = true
       ∧ ((-3 : ℚ) < 0 → format_timestamp_srt (-3) = "00:00:00,000")) :=
  ⟨by decide, format_timestamp_shape (-3) (by decide)⟩

/-! ### Theorems about the cue extractor -/

/-- C5: on the chunk text of Scenario B, with selector `translation`, the
extractor returns exactly the cues `(5.123, "Hello")` and `(10, "World")`
in that order, extracting nothing from the transcript section. -/
theorem extract_segments_scenario_translation :
    extract_segments
        "Timestamped Translation:\n[00:05.123] Hello\n[00:10.000] World\nTimestamped Transcript:\n[00:05.123] Bonjour\n[00:10.000] Monde"
        ContentChoice.translation
      = [(5.123, "Hello"), (10, "World")] := by decide

/-- C2 (code bug): when the cue extractor cannot locate the requested
section, `generate_srt` just returns the plain failure `False` (writing
nothing); it never produces the `'PARSE_ERROR'` result that
`run_pipeline`'s retry loop (process_audio.py, the
`elif srt_result == 'PARSE_ERROR'` branch) and the GUI's parse-error
handler wait for, so the operator-correction pause is unreachable.  Here
the transcript of the only chunk lacks the requested section entirely. -/
theorem generate_srt_plain_failure_on_missing_section :
    generate_srt [⟨10, some "hello"⟩] ContentChoice.translation 0 = (false, none) := by
  decide

/-! ### Theorems about the subtitle synthesizer -/

/-- C4: the ideal duration before clamping is `len(text)/14 + 1.0`; the
clamped duration lies in `[1.5, 7.0]`; the emitted end time is
`min(idealEnd, constraint)` except that whenever that minimum collapses to
at most the global start it is forced to `globalStart + 1.5`; hence every
emitted entry has `global_end > global_start`. -/
theorem cue_duration_heuristic (off dur s : ℚ) (t : String) (nx : Option ℚ) :
    idealDurationOf t = (t.length : ℚ) / 14 + 1
    ∧ (1.5 : ℚ) ≤ clampedDuration t ∧ clampedDuration t ≤ 7
    ∧ (mkEntry off dur (s, t) nx).start = off + s
    ∧ (mkEntry off dur (s, t) nx).stop =
        (if min (off + s + clampedDuration t) (constraintOf off dur nx) ≤ off + s
         then off + s + 1.5
         else min (off + s + clampedDuration t) (constraintOf off dur nx))
    ∧ (mkEntry off dur (s, t) nx).start < (mkEntry off dur (s, t) nx).stop := by
  have hiteq : ∀ a b : ℚ, (if a < b then a else b) = min a b := by
    intro a b
    split_ifs with hab
    · exact (min_eq_left (le_of_lt hab)).symm
    · exact (min_eq_right (not_lt.mp hab)).symm
  refine ⟨?_, ?_, ?_, rfl, ?_, ?_⟩
  · norm_num [idealDurationOf, CHARS_PER_SECOND]
  · exact le_max_left _ _
  · exact max_le (by norm_num [MIN_DURATION_SEC, MAX_DURATION_SEC])
      (le_trans (min_le_right _ _) (by norm_num [MAX_DURATION_SEC]))
  · simp only [mkEntry, hiteq, MIN_DURATION_SEC]
  · simp only [mkEntry]
    split_ifs with h1 h2 h3
    · norm_num [MIN_DURATION_SEC]
    · linarith [not_le.mp h2]
    · norm_num [MIN_DURATION_SEC]
    · linarith [not_le.mp h3]

theorem mkEntry_start (off dur : ℚ) (seg : ℚ × String) (nx : Option ℚ) :
    (mkEntry off dur seg nx).start = off + seg.1 := rfl

theorem chunkEntries_map_start (off dur : ℚ) :
    ∀ segs : List (ℚ × String),
      (chunkEntries off dur segs).map SrtEntry.start = segs.map (fun sg => off + sg.1)
  | [] => rfl
  | seg :: rest => by
    simp only [chunkEntries, List.map_cons, mkEntry_start]
    rw [chunkEntries_map_start off dur rest]

theorem srtLoop_start_lower (choice : ContentChoice) :
    ∀ (cs : List ChunkInput) (off : ℚ),
      (∀ c ∈ cs, 0 ≤ c.duration) →
      (∀ c ∈ cs, ∀ sg ∈ segsOf choice c, 0 ≤ sg.1) →
      ∀ e ∈ (srtLoop choice off cs).2, off ≤ e.start := by
  intro cs
  induction cs with
  | nil => intro off _ _ e he; simp [srtLoop] at he
  | cons c rest ih =>
    intro off hdur hseg e he
    simp only [srtLoop, List.mem_append] at he
    rcases he with he | he
    · have hst : e.start ∈ (chunkEntries off c.duration (segsOf choice c)).map SrtEntry.start :=
        List.mem_map_of_mem SrtEntry.start he
      rw [chunkEntries_map_start] at hst
      obtain ⟨sg, hsg, heq⟩ := List.mem_map.mp hst
      have h0 := hseg c (by simp) sg hsg
      rw [← heq]
      linarith
    · have h0 : 0 ≤ c.duration := hdur c (by simp)
      have := ih (off + c.duration) (fun c' hc' => hdur c' (by simp [hc']))
        (fun c' hc' => hseg c' (by simp [hc'])) e he
      linarith

theorem writtenIndices_strict_mono (l : List SrtEntry) :
    List.Chain' (· < ·) (writtenIndices l) := by
  have h1 : writtenIndices l = List.map (fun n => n + 1) (List.range l.length) := by
    rw [← List.enum_map_fst l, List.map_map]
    rfl
  rw [h1]
  refine List.Pairwise.chain' ?_
  exact (List.pairwise_lt_range _).map (fun n => n + 1)
    (fun a b hab => by simpa using Nat.succ_lt_succ hab)

/-- C3 (amended): for every synthesis run in which each chunk's extracted
cues appear in non-decreasing local-offset order, **and additionally**
every probed chunk duration is nonnegative and every cue's local offset
lies within `[0, chunk duration]`, the written subtitle indices are
strictly increasing and the `global_start` values of the emitted entries
are non-decreasing across the whole output.  (Without the added bounds the
original claim fails: see the counterexample.) -/
theorem srt_entries_monotone (choice : ContentChoice) :
    ∀ (cs : List ChunkInput) (off : ℚ),
      (∀ c ∈ cs, 0 ≤ c.duration) →
      (∀ c ∈ cs, ∀ sg ∈ segsOf choice c, 0 ≤ sg.1 ∧ sg.1 ≤ c.duration) →
      (∀ c ∈ cs, List.Chain' (· ≤ ·) ((segsOf choice c).map Prod.fst)) →
      List.Chain' (· < ·) (writtenIndices (srtLoop choice off cs).2)
      ∧ List.Chain' (· ≤ ·) ((srtLoop choice off cs).2.map SrtEntry.start) := by
  intro cs
  induction cs with
  | nil => intro off _ _ _; exact ⟨writtenIndices_strict_mono _, by simp [srtLoop]⟩
  | cons c rest ih =>
    intro off hdur hbnd hchain
    refine ⟨writtenIndices_strict_mono _, ?_⟩
    simp only [srtLoop, List.map_append]
    have hdur' : ∀ x ∈ rest, 0 ≤ x.duration := fun x hx => hdur x (by simp [hx])
    have hbnd' : ∀ x ∈ rest, ∀ sg ∈ segsOf choice x, 0 ≤ sg.1 ∧ sg.1 ≤ x.duration :=
      fun x hx => hbnd x (by simp [hx])
    have hchain' : ∀ x ∈ rest, List.Chain' (· ≤ ·) ((segsOf choice x).map Prod.fst) :=
      fun x hx => hchain x (by simp [hx])
    refine List.Chain'.append ?_ (ih (off + c.duration) hdur' hbnd' hchain').2 ?_
    · rw [chunkEntries_map_start]
      have hmm : (segsOf choice c).map (fun sg => off + sg.1)
          = ((segsOf choice c).map Prod.fst).map (fun x => off + x) := by
        simp [List.map_map]
      rw [hmm]
      exact (List.chain'_map _).mpr
        ((hchain c (by simp)).imp (fun a b hab => by linarith))
    · intro x hx y hy
      have hxmem : x ∈ (chunkEntries off c.duration (segsOf choice c)).map SrtEntry.start :=
        List.mem_of_mem_getLast? hx
      have hymem : y ∈ ((srtLoop choice (off + c.duration) rest).2).map SrtEntry.start :=
        List.mem_of_mem_head? hy
      rw [chunkEntries_map_start] at hxmem
      obtain ⟨sg, hsg, hxeq⟩ := List.mem_map.mp hxmem
      obtain ⟨e, he, hyeq⟩ := List.mem_map.mp hymem
      have hx_le : x ≤ off + c.duration := by
        have := (hbnd c (by simp) sg hsg).2
        rw [← hxeq]
        linarith
      have hy_ge : off + c.duration ≤ y := by
        have := srtLoop_start_lower choice rest (off + c.duration) hdur'
          (fun x' hx' sg' hsg' => (hbnd' x' hx' sg' hsg').1) e he
        rw [← hyeq]
        exact this
      linarith

/-- C3 counterexample: within each chunk the extracted cue offsets are
non-decreasing, yet the emitted `global_start` sequence is `[1, 0]`,
because the first chunk's probed duration (`0.0`, the probe's failure
value) is smaller than its cue offset.  The claim as stated, without a
bound tying cue offsets to chunk durations, is false. -/
theorem srt_starts_not_monotone_cex :
    (∀ c ∈ cexChunks, List.Chain' (· ≤ ·) ((segsOf .translation c).map Prod.fst))
    ∧ ¬ List.Chain' (· ≤ ·)
        (((srtLoop .translation 0 cexChunks).2).map SrtEntry.start) := by
  have h1 : segsOf .translation ⟨0, some "Timestamped Translation:\n[00:01.000] a"⟩
      = [(1, "a")] := by decide
  have h2 : segsOf .translation ⟨1, some "Timestamped Translation:\n[00:00.000] b"⟩
      = [(0, "b")] := by decide
  have hs : ((srtLoop .translation 0 cexChunks).2).map SrtEntry.start = [1, 0] := by decide
  constructor
  · intro c hc
    rcases List.mem_cons.mp hc with rfl | hc2
    · rw [h1]; simp
    · rcases List.mem_cons.mp hc2 with rfl | hc3
      · rw [h2]; simp
      · exact absurd hc3 (List.not_mem_nil c)
  · rw [hs]
    simp only [List.chain'_cons, List.chain'_singleton, and_true]
    norm_num

/-- C3 witness: the amended theorem applied to a single chunk of duration
`10` with one cue at offset `1`. -/
theorem srt_entries_monotone_witness :
    (∀ c ∈ [(⟨10, some "Timestamped Translation:\n[00:01.000] ok"⟩ : ChunkInput)],
        0 ≤ c.duration)
    ∧ (∀ c ∈ [(⟨10, some "Timestamped Translation:\n[00:01.000] ok"⟩ : ChunkInput)],
        ∀ sg ∈ segsOf .translation c, 0 ≤ sg.1 ∧ sg.1 ≤ c.duration)
    ∧ (∀ c ∈ [(⟨10, some "Timestamped Translation:\n[00:01.000] ok"⟩ : ChunkInput)],
        List.Chain' (· ≤ ·) ((segsOf .translation c).map Prod.fst))
    ∧ (List.Chain' (· < ·) (writtenIndices
        (srtLoop .translation 0 [⟨10, some "Timestamped Translation:\n[00:01.000] ok"⟩]).2)
      ∧ List.Chain' (· ≤ ·)
        ((srtLoop .translation 0 [⟨10, some "Timestamped Translation:\n[00:01.000] ok"⟩]).2.map
          SrtEntry.start)) := by
  have hseg : segsOf .translation ⟨10, some "Timestamped Translation:\n[00:01.000] ok"⟩
      = [(1, "ok")] := by decide
  have hd : ∀ c ∈ [(⟨10, some "Timestamped Translation:\n[00:01.000] ok"⟩ : ChunkInput)],
      0 ≤ c.duration := by
    intro c hc
    rcases List.mem_cons.mp hc with rfl | hc2
    · norm_num
    · exact absurd hc2 (List.not_mem_nil c)
  have hb : ∀ c ∈ [(⟨10, some "Timestamped Translation:\n[00:01.000] ok"⟩ : ChunkInput)],
      ∀ sg ∈ segsOf .translation c, 0 ≤ sg.1 ∧ sg.1 ≤ c.duration := by
    intro c hc
    rcases List.mem_cons.mp hc with rfl | hc2
    · rw [hseg]
      intro sg hsg
      rcases List.mem_cons.mp hsg with rfl | hsg2
      · constructor <;> norm_num
      · exact absurd hsg2 (List.not_mem_nil sg)
    · exact absurd hc2 (List.not_mem_nil c)
  have hch : ∀ c ∈ [(⟨10, some "Timestamped Translation:\n[00:01.000] ok"⟩ : ChunkInput)],
      List.Chain' (· ≤ ·) ((segsOf .translation c).map Prod.fst) := by
    intro c hc
    rcases List.mem_cons.mp hc with rfl | hc2
    · rw [hseg]; simp
    · exact absurd hc2 (List.not_mem_nil c)
  exact ⟨hd, hb, hch, srt_entries_monotone .translation _ 0 hd hb hch⟩

theorem srtLoop_fst (choice : ContentChoice) :
    ∀ (cs : List ChunkInput) (off : ℚ),
      (srtLoop choice off cs).1 = off + (cs.map ChunkInput.duration).sum := by
  intro cs
  induction cs with
  | nil => intro off; simp [srtLoop]
  | cons c rest ih =>
    intro off
    simp only [srtLoop, List.map_cons, List.sum_cons, ih]
    ring

/-- C10: the running global offset is advanced by the chunk's probed
duration regardless of transcript presence or content: after a prefix
`cs` the offset equals the first-chunk offset plus the sum of the probed
durations of `cs`, and the entries emitted for the remaining chunks `ds`
depend on the prefix only through that duration sum — a missing or
malformed transcript for one chunk never shifts the timing of later
chunks' cues. -/
theorem srt_offset_accumulation (choice : ContentChoice) (off : ℚ)
    (cs ds : List ChunkInput) :
    (srtLoop choice off (cs ++ ds)).1 = off + ((cs ++ ds).map ChunkInput.duration).sum
    ∧ (srtLoop choice off (cs ++ ds)).2 =
        (srtLoop choice off cs).2
          ++ (srtLoop choice (off + (cs.map ChunkInput.duration).sum) ds).2 := by
  constructor
  · exact srtLoop_fst choice (cs ++ ds) off
  · induction cs generalizing off with
    | nil => simp [srtLoop]
    | cons c rest ih =>
      simp only [List.cons_append, srtLoop, List.map_cons, List.sum_cons,
        List.append_assoc, List.append_eq]
      rw [ih (off + c.duration), add_assoc]

theorem srtLoop_snd_nil (choice : ContentChoice) :
    ∀ (cs : List ChunkInput) (off : ℚ),
      (∀ c ∈ cs, segsOf choice c = []) → (srtLoop choice off cs).2 = [] := by
  intro cs
  induction cs with
  | nil => intro off _; rfl
  | cons c rest ih =>
    intro off h
    simp only [srtLoop, h c (by simp), chunkEntries, List.nil_append]
    exact ih (off + c.duration) (fun x hx => h x (by simp [hx]))

/-- C7: when zero cues are extracted across all chunks, `generate_srt`
returns failure (`False`, not an exception) and writes no subtitle
file. -/
theorem zero_cues_reports_failure (chunks : List ChunkInput)
    (choice : ContentChoice) (off : ℚ)
    (h : ∀ c ∈ chunks, segsOf choice c = []) :
    generate_srt chunks choice off = (false, none) := by
  unfold generate_srt
  cases chunks with
  | nil => rfl
  | cons c rest =>
    rw [srtLoop_snd_nil choice (c :: rest) off h]
    rfl

/-- C7 witness: two chunks, one with a missing artifact and one whose
artifact has no recognisable section. -/
theorem zero_cues_reports_failure_witness :
    (∀ c ∈ [(⟨2, none⟩ : ChunkInput), ⟨3, some "no sections here"⟩],
        segsOf .translation c = [])
    ∧ generate_srt [⟨2, none⟩, ⟨3, some "no sections here"⟩] .translation 0
        = (false, none) :=
  ⟨by decide, zero_cues_reports_failure _ _ 0 (by decide)⟩

/-! ### Theorems about the transcription orchestrator -/

/-- C6: when skip-existing is enabled, a chunk whose persisted artifact
has no `"error"` marker and carries the `"timestamped transcript:"`
header is counted as a skipped success (`processed`, `success` and
`skipped` each advance by one) and the result is independent of the
remote service's behaviour (`attempts`) — the chunk is never re-sent. -/
theorem skip_existing_never_resends (filename content : String)
    (counts : Counters) (attempts : List (Except String String))
    (hnoerr : containsSubL "error".toList (lowerStr content).toList = false)
    (hheader : containsSubL "timestamped transcript:".toList (lowerStr content).toList = true) :
    process_file_wrapper true filename (some content) attempts counts
      = ("SKIPPED",
          { processed := counts.processed + 1, success := counts.success + 1,
            skipped := counts.skipped + 1 }) := by
  have hvalid : is_valid_transcript (some content) = true := by
    simp only [is_valid_transcript]
    by_cases hlen : content.length = 0
    · exfalso
      have hdata : content.data = [] := List.length_eq_zero.mp hlen
      have hlist : (lowerStr content).toList = [] := by
        simp [lowerStr, String.toList, hdata]
      rw [hlist] at hheader
      exact absurd hheader (by decide)
    · rw [if_neg hlen]
      rw [hnoerr, hheader]
      rfl
  unfold process_file_wrapper
  rw [hvalid]
  rfl

/-- C6 witness: a valid persisted artifact is skipped whatever the remote
would have answered. -/
theorem skip_existing_never_resends_witness :
    containsSubL "error".toList
        (lowerStr "Timestamped Transcript:\n[00:00.000] hi").toList = false
    ∧ containsSubL "timestamped transcript:".toList
        (lowerStr "Timestamped Transcript:\n[00:00.000] hi").toList = true
    ∧ process_file_wrapper true "chunk_001.mp3"
        (some "Timestamped Transcript:\n[00:00.000] hi") [] ⟨0, 0, 0⟩
      = ("SKIPPED", { processed := 1, success := 1, skipped := 1 }) :=
  ⟨by decide, by decide,
    skip_existing_never_resends "chunk_001.mp3" _ ⟨0, 0, 0⟩ [] (by decide) (by decide)⟩


theorem startsWithL_append (n : List Char) :
    ∀ h t, startsWithL n h = true → startsWithL n (h ++ t) = true := by
  induction n with
  | nil => intro h t _; rfl
  | cons a as ih =>
    intro h t hs
    cases h with
    | nil => exact Bool.noConfusion hs
    | cons b bs =>
      simp only [List.cons_append]
      simp only [startsWithL, Bool.and_eq_true] at hs ⊢
      exact ⟨hs.1, ih bs t hs.2⟩

theorem containsSubL_of_startsWithL (n hay : List Char)
    (h : startsWithL n hay = true) : containsSubL n hay = true := by
  cases hay with
  | nil =>
    cases n with
    | nil => rfl
    | cons a as => exact Bool.noConfusion h
  | cons b bs => simp [containsSubL, h]

theorem errMessage_error_marker (filename e : String) :
    containsSubL "error".toList (lowerStr (errMessage filename e)).toList = true := by
  show containsSubL "error".toList ((errMessage filename e).data.map Char.toLower) = true
  simp only [errMessage, String.data_append, List.map_append]
  refine containsSubL_of_startsWithL _ _ (startsWithL_append _ _ _ ?_)
  decide

theorem process_audio_all_failures (filename : String) :
    ∀ (errs : List String), errs ≠ [] →
      ∃ e ∈ errs,
        process_audio_file filename (errs.map Except.error)
          = (some (errMessage filename e), "") := by
  intro errs
  induction errs with
  | nil => intro hc; exact absurd rfl hc
  | cons e rest ih =>
    intro _
    cases rest with
    | nil => exact ⟨e, by simp, rfl⟩
    | cons e2 rest2 =>
      obtain ⟨e3, he3, heq⟩ := ih (by simp)
      refine ⟨e3, by simp [he3], ?_⟩
      simpa [process_audio_file] using heq

theorem is_valid_transcript_error_marker (msg : String)
    (h : containsSubL "error".toList (lowerStr msg).toList = true) :
    is_valid_transcript (some msg) = false := by
  simp only [is_valid_transcript]
  by_cases hlen : msg.length = 0
  · rw [if_pos hlen]
  · rw [if_neg hlen, h]
    rfl

theorem run_transcription_false_iff (clientOk : Bool) (listing : Option (List String)) :
    run_transcription clientOk listing = false ↔
      clientOk = false ∨ listing = none ∨ mp3Files (listing.getD []) = [] := by
  cases clientOk with
  | false => simp [run_transcription]
  | true =>
    cases listing with
    | none => simp [run_transcription]
    | some files =>
      simp only [run_transcription, Bool.not_true, Bool.false_eq_true, if_false,
        Option.getD_some]
      have hperm := List.mergeSort_perm (mp3Files files)
        (fun a b => charListLe a.toList b.toList)
      by_cases hmp : mp3Files files = []
      · rw [hmp]
        simp [hmp]
      · have hne : (mp3Files files).mergeSort
            (fun a b => charListLe a.toList b.toList) ≠ [] := by
          intro hc
          exact hmp (hperm.symm.trans (hc ▸ List.Perm.refl _)).eq_nil
        simp only [String.toList] at hne
        simp [List.isEmpty_iff, hne, hmp]

/-- C8: the transcription orchestrator returns overall success `false`
exactly when the remote client could not be initialized, the input audio
directory is absent, or it contains no `.mp3` files; a chunk failing all
`MAX_RETRIES` attempts gets a failure-marker artifact (which contains
`"error"` and is invalid for resume) while the function itself returns
`""` — and by the iff, such per-chunk failures never make the
orchestrator return `false`. -/
theorem orchestrator_failure_conditions (clientOk : Bool)
    (listing : Option (List String)) (filename : String) (errs : List String)
    (hlen : errs.length = MAX_RETRIES) :
    (run_transcription clientOk listing = false ↔
      clientOk = false ∨ listing = none ∨ mp3Files (listing.getD []) = [])
    ∧ (process_audio_file filename (errs.map Except.error)).2 = ""
    ∧ ∃ msg, (process_audio_file filename (errs.map Except.error)).1 = some msg
        ∧ containsSubL "error".toList (lowerStr msg).toList = true
        ∧ is_valid_transcript (some msg) = false := by
  have hne : errs ≠ [] := by
    intro hc
    rw [hc] at hlen
    simp [MAX_RETRIES] at hlen
  obtain ⟨e, he, heq⟩ := process_audio_all_failures filename errs hne
  refine ⟨run_transcription_false_iff clientOk listing, ?_, ?_⟩
  · rw [heq]
  · exact ⟨errMessage filename e, by rw [heq],
      errMessage_error_marker filename e,
      is_valid_transcript_error_marker _ (errMessage_error_marker filename e)⟩

/-- C8 witness: five failed attempts on `chunk_001.mp3` with a listable,
nonempty audio directory and an initialized client. -/
theorem orchestrator_failure_conditions_witness :
    (["503 overloaded", "503 overloaded", "504 deadline", "other", "503"].length
        = MAX_RETRIES)
    ∧ ((run_transcription true (some ["chunk_001.mp3"]) = false ↔
        true = false ∨ (some ["chunk_001.mp3"] : Option (List String)) = none
          ∨ mp3Files ((some ["chunk_001.mp3"] : Option (List String)).getD []) = [])
      ∧ (process_audio_file "chunk_001.mp3"
          ((["503 overloaded", "503 overloaded", "504 deadline", "other",
            "503"]).map Except.error)).2 = ""
      ∧ ∃ msg, (process_audio_file "chunk_001.mp3"
            ((["503 overloaded", "503 overloaded", "504 deadline", "other",
              "503"]).map Except.error)).1 = some msg
          ∧ containsSubL "error".toList (lowerStr msg).toList = true
          ∧ is_valid_transcript (some msg) = false) :=
  ⟨by decide,
    orchestrator_failure_conditions true (some ["chunk_001.mp3"]) "chunk_001.mp3"
      ["503 overloaded", "503 overloaded", "504 deadline", "other", "503"] (by decide)⟩


end SubGen
